import Mathlib

/-!
Verification of the signal-extraction and technology-detection engine of the
pagespeed_control lead-generation pipeline.

Each definition is a shallow embedding of one JavaScript function of the
repository (file and function named in its doc comment).  JavaScript strings
are modelled through their character lists (`String.data`); the handful of
`String.prototype` methods the source uses are embedded explicitly below.
External primitives that the engine only calls (HTML parsing via cheerio,
`new URL`, `RegExp.test`, network fetch) are modelled as explicit function
parameters, so every theorem quantifies over all behaviours of those
primitives.  Numbers holding confidences are modelled as `ℚ`.
-/

-- ============================================================
-- JavaScript string primitives
-- ============================================================

/-- Model of `String.prototype.includes` (exact substring test).  The source
only applies it to already-lowercased ASCII strings. -/
def jsIncludes (s sub : String) : Bool :=
  decide (sub.data <:+: s.data)

/-- Model of `String.prototype.startsWith`. -/
def jsStartsWith (s pre : String) : Bool :=
  pre.data.isPrefixOf s.data

/-- Model of `String.prototype.endsWith`. -/
def jsEndsWith (s post : String) : Bool :=
  decide (post.data <:+ s.data)

/-- Model of `String.prototype.trim` (strip leading/trailing whitespace). -/
def jsTrim (s : String) : String :=
  ⟨((s.data.dropWhile Char.isWhitespace).reverse.dropWhile Char.isWhitespace).reverse⟩

/-- Model of `String.prototype.slice(n)` / `.substring(n)` for ASCII data. -/
def jsDrop (s : String) (n : Nat) : String :=
  ⟨s.data.drop n⟩

/-- Model of `String.prototype.toLowerCase` for the ASCII strings the
detector feeds it. -/
def jsToLower (s : String) : String :=
  ⟨s.data.map Char.toLower⟩

/-- Model of `str.replace(/\D/g, "")`: keep only decimal digits. -/
def digitsOf (s : String) : String :=
  ⟨s.data.filter Char.isDigit⟩

/-- `uniq` from the utils module (`function uniq(arr) { return
[...new Set((arr || []).filter(Boolean))]; }`, src/unnamed/part_000):
drop falsy (empty) strings, then keep the first occurrence of each value
in insertion order, as a JavaScript `Set` does. -/
def uniq (l : List String) : List String :=
  (l.filter (fun s => !(s == ""))).foldl
    (fun acc s => if s ∈ acc then acc else acc ++ [s]) []

-- ============================================================
-- A stable sort, modelling ECMAScript Array.prototype.sort
-- ============================================================

/-- Insert `a` before the first element `b` with `le a b` (stable insert). -/
def orderedInsertB (le : α → α → Bool) (a : α) : List α → List α
  | [] => [a]
  | b :: l => if le a b then a :: b :: l else b :: orderedInsertB le a l

/-- Stable insertion sort.  ECMAScript requires `Array.prototype.sort` to be
stable, so for a comparator `cmp` the sorted array is the unique stable
reordering that is sorted by `le a b := cmp(a,b) ≤ 0`; this function computes
exactly that reordering. -/
def sortB (le : α → α → Bool) : List α → List α
  | [] => []
  | a :: l => orderedInsertB le a (sortB le l)

-- ============================================================
-- Contact extractor: phone normalization (extract-contacts.js)
-- ============================================================

/-- `stripToDigits` (extract-contacts.js): trim, drop every character that is
not a digit or a plus, then keep a single leading plus at most. -/
def stripToDigits (str : String) : String :=
  let s : String := ⟨(jsTrim str).data.filter (fun c => c.isDigit || c == '+')⟩
  if jsStartsWith s "+" then
    "+" ++ ⟨(jsDrop s 1).data.filter (fun c => !(c == '+'))⟩
  else
    ⟨s.data.filter (fun c => !(c == '+'))⟩

/-- `normalizePhone` (extract-contacts.js): canonicalize a raw phone
candidate to E.164 when possible, `none` when rejected. -/
def normalizePhone (raw : String) : Option String :=
  if raw = "" then none
  else
    let s := stripToDigits raw
    if s = "" then none
    else if jsStartsWith s "+" then
      let d := jsDrop s 1
      if 7 ≤ d.data.length then some ("+" ++ d) else none
    else if jsStartsWith s "00" && decide (9 ≤ s.data.length) then
      some ("+" ++ jsDrop s 2)
    else if s.data.length = 11 && jsStartsWith s "1" then some ("+" ++ s)
    else if s.data.length = 10 then some ("+1" ++ s)
    else if 9 ≤ s.data.length && s.data.length ≤ 15 then some s
    else if s.data.length = 7 then some s
    else none

-- ============================================================
-- Contact extractor: deduplication (extract-contacts.js)
-- ============================================================

/-- `canonKey` inside `deduplicatePhones`: digits only, and an 11-digit
North-American number drops its leading country digit. -/
def canonKey (phone : String) : String :=
  let d := digitsOf phone
  if d.data.length = 11 && jsStartsWith d "1" then jsDrop d 1 else d

/-- One step of building the `byKey` map of `deduplicatePhones`: a JavaScript
`Map` keyed by `canonKey`, kept as an association list in insertion order
(`Map.set` on an existing key keeps its position).  A new key is appended;
an existing entry is replaced only when the incoming value is E.164
(leading plus) and the stored one is not. -/
def phoneInsertGo (p : String) : List (String × String) → List (String × String)
  | [] => [(canonKey p, p)]
  | (k, v) :: m =>
    if k = canonKey p then
      if jsStartsWith p "+" && !jsStartsWith v "+" then (k, p) :: m else (k, v) :: m
    else
      (k, v) :: phoneInsertGo p m

/-- The `byKey` map of `deduplicatePhones` after inserting all phones. -/
def phoneByKey (phones : List String) : List (String × String) :=
  phones.foldl (fun m p => phoneInsertGo p m) []

/-- `Map.get` on an insertion-ordered association list. -/
def alookup (k : String) : List (String × α) → Option α
  | [] => none
  | (k', v) :: m => if k = k' then some v else alookup k m

/-- `[...byKey.keys()]` of `deduplicatePhones`. -/
def phoneKeys (phones : List String) : List String :=
  (phoneByKey phones).map Prod.fst

/-- Step 2 of `deduplicatePhones`: drop a short (< 10 digit) key that is a
suffix of a longer key (`keys.some(other => other.length > key.length &&
other.endsWith(key))`). -/
def filterShortSuffix (keys : List String) : List String :=
  keys.filter (fun key =>
    decide (10 ≤ key.data.length) ||
      !(keys.any (fun other =>
        decide (key.data.length < other.data.length) && jsEndsWith other key)))

/-- The retained canonical keys of `deduplicatePhones`. -/
def filteredPhoneKeys (phones : List String) : List String :=
  filterShortSuffix (phoneKeys phones)

/-- The comparator of step 3 of `deduplicatePhones` as a boolean "sorts no
later than": E.164 values first, then longer digit strings first. -/
def phoneSortLe (a b : String) : Bool :=
  if jsStartsWith a "+" && !jsStartsWith b "+" then true
  else if !jsStartsWith a "+" && jsStartsWith b "+" then false
  else decide ((digitsOf b).data.length ≤ (digitsOf a).data.length)

/-- `deduplicatePhones` (extract-contacts.js): group by canonical key
preferring E.164, drop short keys that are suffixes of longer ones, map the
surviving keys back to their stored representations and sort them E.164
first / longer first. -/
def deduplicatePhones (phones : List String) : List String :=
  sortB phoneSortLe
    ((filteredPhoneKeys phones).filterMap (fun k => alookup k (phoneByKey phones)))

/-- `deduplicateEmails` (extract-contacts.js): keep the first occurrence of
each case-insensitive value. -/
def dedupEmailsGo (seen : List String) : List String → List String
  | [] => []
  | e :: rest =>
    if jsToLower e ∈ seen then dedupEmailsGo seen rest
    else e :: dedupEmailsGo (jsToLower e :: seen) rest

/-- `deduplicateEmails` (extract-contacts.js). -/
def deduplicateEmails (emails : List String) : List String :=
  dedupEmailsGo [] emails

-- ============================================================
-- Technology detector (src/stack/index.js)
-- ============================================================

/-- A technology detection object, as built by `createTech(name, category,
confidence, evidence)` (src/stack/index.js). -/
structure Tech where
  name : String
  category : String
  confidence : ℚ
  evidence : String
deriving DecidableEq

/-- `uniqueKey` inside `deduplicateTechnologies`: the template string
`name + "::" + category`. -/
def uniqueKey (t : Tech) : String :=
  t.name ++ "::" ++ t.category

/-- One step of building the `techMap` of `deduplicateTechnologies`: a
JavaScript `Map` as an insertion-ordered association list.  A missing key is
appended; an existing entry is overwritten in place exactly when the new
hit's confidence is strictly higher (`(existing.confidence ?? 0) <
(tech.confidence ?? 0)`; every `createTech` call supplies a number, so the
`?? 0` defaults never fire). -/
def techInsertGo (t : Tech) : List (String × Tech) → List (String × Tech)
  | [] => [(uniqueKey t, t)]
  | (k, v) :: m =>
    if k = uniqueKey t then
      if v.confidence < t.confidence then (k, t) :: m else (k, v) :: m
    else
      (k, v) :: techInsertGo t m

/-- The `techMap` of `deduplicateTechnologies` after all insertions. -/
def techFold (ts : List Tech) : List (String × Tech) :=
  ts.foldl (fun m t => techInsertGo t m) []

/-- The comparator `(a, b) => (b.confidence ?? 0) - (a.confidence ?? 0)` as a
boolean "sorts no later than": descending confidence. -/
def techLe (a b : Tech) : Bool :=
  decide (b.confidence ≤ a.confidence)

/-- `deduplicateTechnologies` (src/stack/index.js): collapse hits by
`name::category` keeping the highest confidence, then sort the retained
values by descending confidence (stably, per Array.prototype.sort). -/
def deduplicateTechnologies (technologies : List Tech) : List Tech :=
  sortB techLe ((techFold technologies).map Prod.snd)

/-- The best confidence the hit list `ts` offers for canonical key `k`
(`⊥` when no hit has that key): the specification value against which the
map's retained confidences are compared. -/
def keyConf (ts : List Tech) (k : String) : WithBot ℚ :=
  (ts.filter (fun t => uniqueKey t == k)).foldr
    (fun t acc => max ((t.confidence : ℚ) : WithBot ℚ) acc) ⊥

-- ============================================================
-- Page-importance ranker (src/unnamed/part_010, later revision)
-- ============================================================

/-- `scoreLinkRelevance` (src/unnamed/part_010, later revision): keyword
scoring of a URL, negative for junk pages. -/
def scoreLinkRelevance (url : String) : Int :=
  let u := jsToLower url
  (if jsIncludes u "contact" then 6 else 0)
  + (if jsIncludes u "locations" || jsIncludes u "location" then 5 else 0)
  + (if jsIncludes u "appointment" || jsIncludes u "appointments" then 6 else 0)
  + (if jsIncludes u "schedule" || jsIncludes u "scheduling" then 6 else 0)
  + (if jsIncludes u "book" || jsIncludes u "booking" then 6 else 0)
  + (if jsIncludes u "request-appointment" || jsIncludes u "appointment-request" then 7 else 0)
  + (if jsIncludes u "call" || jsIncludes u "phone" then 3 else 0)
  + (if jsIncludes u "new-patient" || jsIncludes u "new-patients" then 5 else 0)
  + (if jsIncludes u "patient-forms" || jsIncludes u "forms" then 4 else 0)
  + (if jsIncludes u "insurance" || jsIncludes u "insurances" then 4 else 0)
  + (if jsIncludes u "financing" || jsIncludes u "payment" || jsIncludes u "pay" then 4 else 0)
  + (if jsIncludes u "special-offer" || jsIncludes u "specials" || jsIncludes u "offers" || jsIncludes u "coupon" then 3 else 0)
  + (if jsIncludes u "emergency" then 4 else 0)
  + (if jsIncludes u "referral" || jsIncludes u "refer" then 3 else 0)
  + (if jsIncludes u "about" then 3 else 0)
  + (if jsIncludes u "our-team" || jsIncludes u "team" then 4 else 0)
  + (if jsIncludes u "doctor" || jsIncludes u "doctors" then 4 else 0)
  + (if jsIncludes u "dentist" || jsIncludes u "dentists" then 3 else 0)
  + (if jsIncludes u "staff" || jsIncludes u "hygienist" then 2 else 0)
  + (if jsIncludes u "meet-the-doctor" || jsIncludes u "meet-the-team" then 5 else 0)
  + (if jsIncludes u "services" || jsIncludes u "service" then 2 else 0)
  + (if jsIncludes u "cosmetic" || jsIncludes u "implants" || jsIncludes u "invisalign" then 1 else 0)
  + (if jsIncludes u "family-dentistry" || jsIncludes u "general-dentistry" then 1 else 0)
  + (if jsIncludes u "blog" || jsIncludes u "news" || jsIncludes u "articles" then -2 else 0)
  + (if jsIncludes u "privacy" || jsIncludes u "terms" || jsIncludes u "sitemap" ||
        jsIncludes u "accessibility" || jsIncludes u "careers" || jsIncludes u "jobs" then -3 else 0)

/-- The WHATWG `URL` primitive as the ranker sees it: `resolve href base`
models `new URL(href, base).toString()` (`none` when the constructor throws)
and `host u` models `new URL(u).host` (`none` when the constructor throws).
The theorems quantify over every such model. -/
structure UrlModel where
  resolve : String → String → Option String
  host : String → Option String

/-- `normalizeLinks` (src/unnamed/part_010, later revision): resolve each
href against the base URL swallowing parse failures, drop falsy results,
keep only same-host URLs (a throwing parse counts as a mismatch), and
deduplicate.  `new URL(baseUrl).host` is outside any try/catch, so an
unparseable base URL makes the whole call throw: that is the `none` result. -/
def normalizeLinks (M : UrlModel) (links : List String) (baseUrl : String) :
    Option (List String) :=
  match M.host baseUrl with
  | none => none
  | some baseHost =>
    some (uniq
      (((links.filterMap (fun href => M.resolve href baseUrl)).filter
          (fun u => !(u == ""))).filter
        (fun u => M.host u == some baseHost)))

/-- The comparator `(a, b) => scoreLinkRelevance(b) - scoreLinkRelevance(a)`
as a boolean "sorts no later than". -/
def linkLe (a b : String) : Bool :=
  decide (scoreLinkRelevance b ≤ scoreLinkRelevance a)

/-- `pickImportantLinks` (src/unnamed/part_010, later revision).  The cheerio
step `$("a[href]").map(...).get().filter(Boolean)` is pure HTML-attribute
extraction; it is modelled by quantifying over the extracted list
`rawLinks`.  The rest mirrors the source: normalize to same-host absolute
URLs, sort by descending relevance, keep strictly positive scores, take the
top `maxLinks`. -/
def pickImportantLinks (M : UrlModel) (rawLinks : List String) (baseUrl : String)
    (maxLinks : Nat) : Option (List String) :=
  (normalizeLinks M rawLinks baseUrl).map (fun ls =>
    ((sortB linkLe ls).filter (fun url => decide (0 < scoreLinkRelevance url))).take
      maxLinks)

-- ============================================================
-- Signal structures (src/signals/detect.js, src/unnamed/part_010)
-- ============================================================

/-- The tracking flags returned by `detectTracking` (src/signals/detect.js). -/
structure TrackingSignals where
  ga4 : Bool
  gtm : Bool
  google_ads : Bool
  meta_pixel : Bool
  linkedin_insight : Bool
  twitter_pixel : Bool
  hotjar : Bool
  microsoft_clarity : Bool
  mouseflow : Bool
  matomo : Bool
  mixpanel : Bool
deriving DecidableEq

/-- The tracking slots of the merged record (`createEmptySignalStructure`,
src/unnamed/part_010): only these four tools are aggregated. -/
structure MergedTracking where
  ga4 : Bool
  gtm : Bool
  meta_pixel : Bool
  google_ads : Bool
deriving DecidableEq

/-- The keys of `merged.tracking` that the merge loop
`for (const key of Object.keys(merged.tracking))` iterates over. -/
inductive TrackedTool where
  | ga4
  | gtm
  | meta_pixel
  | google_ads
deriving DecidableEq

/-- `merged.tracking[key]`. -/
def trackGet (t : MergedTracking) : TrackedTool → Bool
  | TrackedTool.ga4 => t.ga4
  | TrackedTool.gtm => t.gtm
  | TrackedTool.meta_pixel => t.meta_pixel
  | TrackedTool.google_ads => t.google_ads

/-- `pageSignal.tracking[key]` for the merged keys. -/
def pageTrackGet (t : TrackingSignals) : TrackedTool → Bool
  | TrackedTool.ga4 => t.ga4
  | TrackedTool.gtm => t.gtm
  | TrackedTool.meta_pixel => t.meta_pixel
  | TrackedTool.google_ads => t.google_ads

/-- `mergeTrackingSignals` (src/unnamed/part_010): the loop
`merged.tracking[key] ||= pageSignal.tracking[key]` unrolled over the four
keys of the merged record. -/
def mergeTrackingSignals (merged : MergedTracking) (pageSignal : TrackingSignals) :
    MergedTracking :=
  { ga4 := merged.ga4 || pageSignal.ga4
    gtm := merged.gtm || pageSignal.gtm
    meta_pixel := merged.meta_pixel || pageSignal.meta_pixel
    google_ads := merged.google_ads || pageSignal.google_ads }

/-- The chatbot signal returned by `detectChatbot` (src/signals/detect.js). -/
structure ChatbotSignal where
  has_chatbot : Bool
  vendor : Option String
  confidence : ℚ
deriving DecidableEq

/-- The merged chatbot slot (adds the evidence URL). -/
structure MergedChatbot where
  has_chatbot : Bool
  vendor : Option String
  confidence : ℚ
  evidence_url : Option String
deriving DecidableEq

/-- `mergeChatbotSignals` (src/unnamed/part_010): the first page that
asserts a chatbot wins; later detections never overwrite it. -/
def mergeChatbotSignals (merged : MergedChatbot) (page : ChatbotSignal)
    (pageUrl : String) : MergedChatbot :=
  if !merged.has_chatbot && page.has_chatbot then
    { has_chatbot := page.has_chatbot
      vendor := page.vendor
      confidence := page.confidence
      evidence_url := some pageUrl }
  else merged

/-- The booking signal returned by `detectBooking` (src/signals/detect.js). -/
structure BookingSignal where
  type : Option String
  evidence : Option String
  confidence : ℚ
deriving DecidableEq

/-- The merged booking slot (adds the evidence URL). -/
structure MergedBooking where
  type : Option String
  evidence : Option String
  confidence : ℚ
  evidence_url : Option String
deriving DecidableEq

/-- `mergeBookingSignals` (src/unnamed/part_010): replace the retained
signal exactly when the new page's confidence is strictly higher
(`newConfidence > currentConfidence`; the `?? 0` defaults never fire since
every constructor supplies a number). -/
def mergeBookingSignals (merged : MergedBooking) (page : BookingSignal)
    (pageUrl : String) : MergedBooking :=
  if merged.confidence < page.confidence then
    { type := page.type
      evidence := page.evidence
      confidence := page.confidence
      evidence_url := some pageUrl }
  else merged

/-- A contact bundle `{ phones, emails }`. -/
structure Contact where
  phones : List String
  emails : List String
deriving DecidableEq

/-- `mergeContactSignals` (extract-contacts.js): re-deduplicate the union of
the accumulated and the page's phones and emails. -/
def mergeContactSignals (merged page : Contact) : Contact :=
  { phones := deduplicatePhones (merged.phones ++ page.phones)
    emails := deduplicateEmails (merged.emails ++ page.emails) }

/-- The per-page signal bundle returned by `detectFromHtml`
(src/signals/detect.js).  The SEO object is opaque to the merge logic, so
its type is a parameter. -/
structure PageSignals (σ : Type) where
  tracking : TrackingSignals
  chatbot : ChatbotSignal
  booking : BookingSignal
  contact : Contact
  seo : σ

/-- The aggregated site record built by `processAndMergeSignals`
(src/unnamed/part_010).  `seo` starts as the empty object `{}` and is
overwritten with the homepage's SEO bundle, modelled as `Option σ`. -/
structure MergedSignals (σ : Type) where
  chatbot : MergedChatbot
  tracking : MergedTracking
  booking : MergedBooking
  contact : Contact
  seo : Option σ
  crawled_pages : List String

/-- `createEmptySignalStructure` (src/unnamed/part_010). -/
def createEmptySignalStructure (σ : Type) : MergedSignals σ :=
  { chatbot := { has_chatbot := false, vendor := none, confidence := 0, evidence_url := none }
    tracking := { ga4 := false, gtm := false, meta_pixel := false, google_ads := false }
    booking := { type := none, evidence := none, confidence := 0, evidence_url := none }
    contact := { phones := [], emails := [] }
    seo := none
    crawled_pages := [] }

/-- `mergeSeoSignals` (src/unnamed/part_010): only the homepage's SEO bundle
is kept. -/
def mergeSeoSignals {σ : Type} (merged : MergedSignals σ) (page : PageSignals σ)
    (pageUrl homepageUrl : String) : MergedSignals σ :=
  if pageUrl = homepageUrl then { merged with seo := some page.seo } else merged

/-- The body of the page loop of `processAndMergeSignals`
(src/unnamed/part_010, later revision): run the detector and the contact
extractor on the page and fold each signal family into the record.
`detect` abstracts `detectFromHtml` and `extract` abstracts
`extractContacts` (both are pure functions of the page HTML whose internals
involve cheerio parsing); a page is a `(url, html)` pair. -/
def mergePageStep {σ : Type} (detect : String → PageSignals σ)
    (extract : String → Contact) (homepageUrl : String)
    (merged : MergedSignals σ) (page : String × String) : MergedSignals σ :=
  let signals := detect page.2
  let m1 := { merged with tracking := mergeTrackingSignals merged.tracking signals.tracking }
  let m2 := { m1 with chatbot := mergeChatbotSignals m1.chatbot signals.chatbot page.1 }
  let m3 := { m2 with booking := mergeBookingSignals m2.booking signals.booking page.1 }
  let m4 := mergeSeoSignals m3 signals page.1 homepageUrl
  let pageContact := extract page.2
  { m4 with contact := mergeContactSignals m4.contact pageContact }

/-- `processAndMergeSignals` (src/unnamed/part_010, later revision): start
from the empty record with `crawled_pages` set to the page URLs, then merge
every page in order. -/
def processAndMergeSignals {σ : Type} (detect : String → PageSignals σ)
    (extract : String → Contact) (pages : List (String × String))
    (homepageUrl : String) : MergedSignals σ :=
  pages.foldl (mergePageStep detect extract homepageUrl)
    { createEmptySignalStructure σ with crawled_pages := pages.map Prod.fst }

/-- `fetchAdditionalPages` (src/unnamed/part_010): fetch each ranked link,
silently skipping any fetch that throws.  `fetch` abstracts `fetchHtml`
(src/signals/fetch.js), which throws on a non-OK HTTP status or a network
error: `Except.error` is the thrown case. -/
def fetchAdditionalPages (fetch : String → Except String String)
    (links : List String) : List (String × String) :=
  links.foldl
    (fun pages link =>
      match fetch link with
      | Except.ok html => pages ++ [(link, html)]
      | Except.error _ => pages)
    []

/-- Whether `fetchHtml` would succeed on `link` under the fetch oracle. -/
def fetchSucceeds (fetch : String → Except String String) (link : String) : Bool :=
  match fetch link with
  | Except.ok _ => true
  | Except.error _ => false

/-- `collectSignals` (src/unnamed/part_010, later revision): fetch the
homepage (propagating its failure), rank its internal links (`pick`
abstracts `pickImportantLinks htmlhomepage url 2`, a pure function of the
homepage markup), fetch the ranked pages swallowing individual failures,
and merge every fetched page. -/
def collectSignals {σ : Type} (fetch : String → Except String String)
    (pick : String → String → List String) (detect : String → PageSignals σ)
    (extract : String → Contact) (websiteUrl : String) :
    Except String (MergedSignals σ) :=
  match fetch websiteUrl with
  | Except.error e => Except.error e
  | Except.ok homepageHtml =>
    Except.ok (processAndMergeSignals detect extract
      ((websiteUrl, homepageHtml) :: fetchAdditionalPages fetch (pick homepageHtml websiteUrl))
      websiteUrl)

/-- Whether an aggregation result is a returned record (`Except.ok`). -/
def isOkE {σ : Type} : Except String (MergedSignals σ) → Bool
  | Except.ok _ => true
  | Except.error _ => false

/-- The `crawled_pages` field of a returned record, `none` on failure. -/
def crawledPagesOf {σ : Type} : Except String (MergedSignals σ) → Option (List String)
  | Except.ok r => some r.crawled_pages
  | Except.error _ => none

-- ============================================================
-- Chatbot detector (src/signals/detect.js)
-- ============================================================

/-- The `for (const [name, rx] of vendors)` loop of `detectChatbot`
(src/signals/detect.js).  A vendor pattern `rx` is modelled as the function
`String → Bool` computed by `rx.test`; `embedRx` models the fixed regex
`/<script|widget|iframe|chat|messenger|launcher/i` of the `strongHit`
helper, so `strongHit rx = rx blob || rx html || embedRx blob`.  The loop
returns on the first vendor whose pattern matches the script blob or the
lowercased markup. -/
def chatbotScan (blob html : String) (embedRx : String → Bool) :
    List (String × (String → Bool)) → ChatbotSignal
  | [] => { has_chatbot := false, vendor := none, confidence := 0 }
  | (name, rx) :: rest =>
    if rx blob || rx html then
      { has_chatbot := true
        vendor := some name
        confidence := if rx blob || rx html || embedRx blob then 95/100 else 75/100 }
    else chatbotScan blob html embedRx rest

/-- `detectChatbot` (src/signals/detect.js) over an arbitrary vendor table
(the source's table has 31 fixed entries whose regexes are oracle
functions here). -/
def detectChatbot (vendors : List (String × (String → Bool)))
    (embedRx : String → Bool) (scriptBlob htmlLower : String) : ChatbotSignal :=
  chatbotScan scriptBlob htmlLower embedRx vendors

-- ============================================================
-- Concrete fixtures used by witnesses and counterexamples
-- ============================================================

/-- The greatest key length in a key list (used to measure the suffix-chase
in the 7-digit-suffix analysis of `deduplicatePhones`). -/
def maxKeyLen (keys : List String) : Nat :=
  keys.foldr (fun k acc => max k.data.length acc) 0

/-- Fixture: a fetch oracle whose homepage succeeds, whose first ranked link
fails and whose other links succeed. -/
def demoFetch : String → Except String String := fun u =>
  if u = "https://site" then Except.ok "<html>"
  else if u = "https://site/contact" then Except.error "timeout"
  else Except.ok "page"

/-- Fixture: a ranked-link oracle returning two internal links. -/
def demoPick : String → String → List String := fun _ _ =>
  ["https://site/contact", "https://site/about"]

/-- Fixture: a page-signal oracle with every signal at its empty state. -/
def demoDetect : String → PageSignals Unit := fun _ =>
  { tracking :=
      { ga4 := false, gtm := false, google_ads := false, meta_pixel := false
        linkedin_insight := false, twitter_pixel := false, hotjar := false
        microsoft_clarity := false, mouseflow := false, matomo := false
        mixpanel := false }
    chatbot := { has_chatbot := false, vendor := none, confidence := 0 }
    booking := { type := none, evidence := none, confidence := 0 }
    contact := { phones := [], emails := [] }
    seo := () }

/-- Fixture: a contact extractor finding nothing. -/
def demoExtract : String → Contact := fun _ =>
  { phones := [], emails := [] }

/-- Fixture: a URL model in which every string parses and has host
"site.example", and `new URL(href, base)` resolves to `href` itself. -/
def demoUrlModel : UrlModel :=
  { resolve := fun href _ => some href
    host := fun _ => some "site.example" }

/-- Fixture: the chatbot vendor table restricted to the crisp entry, with
its regex oracle implemented by a substring test. -/
def demoVendors : List (String × (String → Bool)) :=
  [("crisp", fun s => jsIncludes s "client.crisp.chat")]

/-- Fixture: the `strongHit` embed regex as a substring oracle. -/
def demoEmbedRx : String → Bool := fun s => jsIncludes s "widget"

/-- Fixture: a script blob containing a crisp chat embed. -/
def demoBlob : String := "https://client.crisp.chat/l.js"

/-- Fixture: technology hits with one duplicated pair and a tie (integer
confidences so that concrete evaluation stays kernel-reducible). -/
def demoHits : List Tech :=
  [ { name := "WordPress", category := "CMS", confidence := 0, evidence := "generator" }
  , { name := "Nginx", category := "Server", confidence := 1, evidence := "server hdr" }
  , { name := "WordPress", category := "CMS", confidence := 1, evidence := "wp-content" } ]

/-- Fixture: two distinct hits with equal confidence (order-dependence). -/
def techA : Tech :=
  { name := "Hotjar", category := "CRO", confidence := 1, evidence := "hotjar" }

/-- Fixture: second equal-confidence hit. -/
def techB : Tech :=
  { name := "Microsoft Clarity", category := "CRO", confidence := 1, evidence := "clarity.ms" }

/-- Fixture: a merged booking slot already holding a vendor detection. -/
def demoBooking : MergedBooking :=
  { type := some "calendly", evidence := some "embed/script", confidence := 95/100
    evidence_url := some "https://site" }

/-- Fixture: a weaker page booking signal. -/
def demoPageBooking : BookingSignal :=
  { type := some "form", evidence := some "booking keywords + form", confidence := 78/100 }

-- ============================================================
-- Theorems
-- ============================================================

-- Stable-sort infrastructure.

theorem orderedInsertB_perm (le : α → α → Bool) (a : α) :
    ∀ l : List α, (orderedInsertB le a l).Perm (a :: l)
  | [] => List.Perm.refl _
  | b :: l => by
    unfold orderedInsertB
    by_cases h : le a b = true
    · rw [if_pos h]
    · rw [if_neg h]
      exact ((orderedInsertB_perm le a l).cons b).trans (List.Perm.swap a b l)

theorem sortB_perm (le : α → α → Bool) :
    ∀ l : List α, (sortB le l).Perm l
  | [] => List.Perm.refl _
  | a :: l => by
    unfold sortB
    exact (orderedInsertB_perm le a (sortB le l)).trans ((sortB_perm le l).cons a)

theorem mem_sortB (le : α → α → Bool) (l : List α) (x : α) :
    x ∈ sortB le l ↔ x ∈ l :=
  (sortB_perm le l).mem_iff

theorem pairwise_orderedInsertB (le : α → α → Bool)
    (trans : ∀ a b c, le a b = true → le b c = true → le a c = true)
    (total : ∀ a b, le a b = true ∨ le b a = true) (a : α) :
    ∀ l : List α, l.Pairwise (fun x y => le x y = true) →
      (orderedInsertB le a l).Pairwise (fun x y => le x y = true)
  | [], _ => List.pairwise_singleton _ a
  | b :: l, hp => by
    rcases List.pairwise_cons.mp hp with ⟨hb, hl⟩
    unfold orderedInsertB
    by_cases h : le a b = true
    · rw [if_pos h]
      refine List.pairwise_cons.mpr ⟨?_, hp⟩
      intro y hy
      cases hy with
      | head => exact h
      | tail _ hy => exact trans a b y h (hb y hy)
    · rw [if_neg h]
      refine List.pairwise_cons.mpr ⟨?_, pairwise_orderedInsertB le trans total a l hl⟩
      intro y hy
      have hmem : y ∈ a :: l := (orderedInsertB_perm le a l).mem_iff.mp hy
      cases hmem with
      | head =>
        rcases total a b with h' | h'
        · exact absurd h' h
        · exact h'
      | tail _ hm => exact hb y hm

theorem pairwise_sortB (le : α → α → Bool)
    (trans : ∀ a b c, le a b = true → le b c = true → le a c = true)
    (total : ∀ a b, le a b = true ∨ le b a = true) :
    ∀ l : List α, (sortB le l).Pairwise (fun x y => le x y = true)
  | [] => List.Pairwise.nil
  | a :: l => by
    unfold sortB
    exact pairwise_orderedInsertB le trans total a (sortB le l)
      (pairwise_sortB le trans total l)

theorem sortB_of_pairwise (le : α → α → Bool) :
    ∀ l : List α, l.Pairwise (fun x y => le x y = true) → sortB le l = l
  | [], _ => rfl
  | a :: l, hp => by
    rcases List.pairwise_cons.mp hp with ⟨ha, hl⟩
    unfold sortB
    rw [sortB_of_pairwise le l hl]
    cases l with
    | nil => rfl
    | cons b t =>
      unfold orderedInsertB
      rw [if_pos (ha b (List.mem_cons_self b t))]

-- Claim C2.

/-- C2: normalizing the four representations "(404) 762-9615",
"404-762-9615", "4047629615" and "+14047629615" and deduplicating the
results retains exactly one entry, the E.164 form "+14047629615". -/
theorem phoneNormalizeDedup_collapse :
    deduplicatePhones
        (["(404) 762-9615", "404-762-9615", "4047629615", "+14047629615"].filterMap
          normalizePhone)
      = ["+14047629615"] := by
  decide

-- Claim C9 (corrected).

/-- C9 counterexample: a stripped string that starts with a plus but has
fewer than 7 digits after it is rejected (`none`), not kept verbatim, and a
"00" string shorter than 9 characters is rejected rather than turned into a
leading-plus value. -/
theorem normalizePhone_shortPlus_cex :
    normalizePhone "+123456" ≠ some "+123456" ∧ normalizePhone "+123456" = none ∧
    normalizePhone "00123456" ≠ some "+123456" ∧ normalizePhone "00123456" = none := by
  decide

/-- C9 amended: for a non-empty candidate, if the stripped string starts
with a plus it is kept verbatim (digits only after the plus) when at least 7
digits follow the plus and rejected otherwise; if it starts with the
international prefix "00" (and no plus) it becomes a leading-plus value by
substitution provided it is at least 9 characters long. -/
theorem normalizePhone_plus_intl (raw : String) (h0 : raw ≠ "") :
    (jsStartsWith (stripToDigits raw) "+" = true →
      (7 ≤ (jsDrop (stripToDigits raw) 1).data.length →
        normalizePhone raw = some ("+" ++ jsDrop (stripToDigits raw) 1)) ∧
      ((jsDrop (stripToDigits raw) 1).data.length < 7 →
        normalizePhone raw = none)) ∧
    (jsStartsWith (stripToDigits raw) "+" = false →
      jsStartsWith (stripToDigits raw) "00" = true →
      9 ≤ (stripToDigits raw).data.length →
      normalizePhone raw = some ("+" ++ jsDrop (stripToDigits raw) 2)) := by
  have hs : ∀ hss : stripToDigits raw = "",
      jsStartsWith (stripToDigits raw) "+" = false ∧
        jsStartsWith (stripToDigits raw) "00" = false := by
    intro hss
    rw [hss]
    exact ⟨rfl, rfl⟩
  constructor
  · intro hplus
    have hne : ¬stripToDigits raw = "" := by
      intro hss
      rw [(hs hss).1] at hplus
      exact Bool.false_ne_true hplus
    constructor
    · intro hlen
      simp only [normalizePhone, if_neg h0, if_neg hne, hplus, if_pos, if_true]
      rw [if_pos hlen]
    · intro hlen
      simp only [normalizePhone, if_neg h0, if_neg hne, hplus, if_true]
      rw [if_neg (Nat.not_le.mpr hlen)]
  · intro hplus h00 hlen
    have hne : ¬stripToDigits raw = "" := by
      intro hss
      rw [(hs hss).2] at h00
      exact Bool.false_ne_true h00
    simp only [normalizePhone, if_neg h0, if_neg hne, hplus, Bool.false_eq_true,
      if_false, h00, Bool.true_and]
    rw [if_pos (decide_eq_true hlen)]

/-- C9 witness: the amended theorem applied at "+14047629615". -/
theorem normalizePhone_plus_intl_w :
    normalizePhone "+14047629615" = some ("+" ++ jsDrop (stripToDigits "+14047629615") 1) :=
  ((normalizePhone_plus_intl "+14047629615" (by decide)).1 (by decide)).1 (by decide)

-- Claim C6.

/-- C6: merging a page's booking signal keeps the retained signal (type,
evidence, confidence and evidence URL all unchanged) whenever the page's
confidence is equal or lower, replaces it (stamping the page URL) exactly
when the page's confidence is strictly higher, and thus always retains the
highest confidence seen. -/
theorem mergeBookingSignals_spec (merged : MergedBooking) (page : BookingSignal)
    (pageUrl : String) :
    (page.confidence ≤ merged.confidence →
      mergeBookingSignals merged page pageUrl = merged) ∧
    (merged.confidence < page.confidence →
      mergeBookingSignals merged page pageUrl =
        { type := page.type, evidence := page.evidence, confidence := page.confidence
          evidence_url := some pageUrl }) ∧
    (mergeBookingSignals merged page pageUrl).confidence =
      max merged.confidence page.confidence := by
  by_cases h : merged.confidence < page.confidence
  · refine ⟨fun hle => absurd h (not_lt.mpr hle), fun _ => ?_, ?_⟩
    · simp only [mergeBookingSignals, if_pos h]
    · simp only [mergeBookingSignals, if_pos h]
      exact (max_eq_right (le_of_lt h)).symm
  · refine ⟨fun _ => ?_, fun hlt => absurd hlt h, ?_⟩
    · simp only [mergeBookingSignals, if_neg h]
    · simp only [mergeBookingSignals, if_neg h]
      exact (max_eq_left (not_lt.mp h)).symm

/-- C6 witness: a later page with confidence 0.78 does not downgrade a
retained 0.95 calendly detection. -/
theorem mergeBookingSignals_spec_w :
    mergeBookingSignals demoBooking demoPageBooking "https://site/contact" = demoBooking :=
  (mergeBookingSignals_spec demoBooking demoPageBooking "https://site/contact").1
    (by norm_num [demoBooking, demoPageBooking])

-- Claim C10.

/-- Helper: the vendor loop of `detectChatbot` reports confidence 0.95 on
every hit (the strong-hit disjunction repeats the very tests that caused the
hit) and names the first matching vendor of the table. -/
theorem chatbotScan_spec (blob html : String) (embedRx : String → Bool) :
    ∀ vendors : List (String × (String → Bool)),
      (chatbotScan blob html embedRx vendors).has_chatbot = true →
      (chatbotScan blob html embedRx vendors).confidence = 95/100 ∧
      ∃ pre name rx post,
        vendors = pre ++ (name, rx) :: post ∧
        (∀ v ∈ pre, v.2 blob = false ∧ v.2 html = false) ∧
        (rx blob || rx html) = true ∧
        (chatbotScan blob html embedRx vendors).vendor = some name
  | [], h => by
    simp only [chatbotScan] at h
    exact absurd h (Bool.false_ne_true)
  | (name, rx) :: rest, h => by
    by_cases hm : (rx blob || rx html) = true
    · have hstrong : (rx blob || rx html || embedRx blob) = true := by
        rw [hm, Bool.true_or]
      refine ⟨?_, [], name, rx, rest, rfl, by simp, hm, ?_⟩
      · simp only [chatbotScan, if_pos hm, hstrong, if_true]
      · simp only [chatbotScan, if_pos hm]
    · have hrest : chatbotScan blob html embedRx ((name, rx) :: rest)
          = chatbotScan blob html embedRx rest := by
        simp only [chatbotScan, if_neg hm]
      rw [hrest] at h
      obtain ⟨hconf, pre, nm, rx', post, heq, hpre, hhit, hvend⟩ :=
        chatbotScan_spec blob html embedRx rest h
      refine ⟨by rw [hrest]; exact hconf, (name, rx) :: pre, nm, rx', post,
        by rw [heq, List.cons_append], ?_, hhit, by rw [hrest]; exact hvend⟩
      intro v hv
      have hfalse : (rx blob || rx html) = false := eq_false_of_ne_true hm
      cases hv with
      | head => exact Bool.or_eq_false_iff.mp hfalse
      | tail _ hv => exact hpre v hv

/-- C10: whenever `detectChatbot` reports a chatbot, its confidence is
exactly 0.95 — the 0.75 branch is unreachable because the strong-hit test
repeats the vendor tests that fired — and the reported vendor is the first
entry of the vendor table whose pattern matches the script blob or markup
(so at most one vendor is ever reported). -/
theorem detectChatbot_conf95_first (vendors : List (String × (String → Bool)))
    (embedRx : String → Bool) (scriptBlob htmlLower : String)
    (h : (detectChatbot vendors embedRx scriptBlob htmlLower).has_chatbot = true) :
    (detectChatbot vendors embedRx scriptBlob htmlLower).confidence = 95/100 ∧
    ∃ pre name rx post,
      vendors = pre ++ (name, rx) :: post ∧
      (∀ v ∈ pre, v.2 scriptBlob = false ∧ v.2 htmlLower = false) ∧
      (rx scriptBlob || rx htmlLower) = true ∧
      (detectChatbot vendors embedRx scriptBlob htmlLower).vendor = some name :=
  chatbotScan_spec scriptBlob htmlLower embedRx vendors h

/-- C10 witness: the crisp entry matching a crisp script blob is reported
with confidence exactly 0.95. -/
theorem detectChatbot_conf95_first_w :
    (detectChatbot demoVendors demoEmbedRx demoBlob "").confidence = 95/100 :=
  (detectChatbot_conf95_first demoVendors demoEmbedRx demoBlob "" (by decide)).1

-- Claim C5.

/-- Helper: `merged.tracking[key] ||= pageSignal.tracking[key]` reads as a
boolean or at every merged key. -/
theorem trackGet_mergeTracking (m : MergedTracking) (p : TrackingSignals)
    (k : TrackedTool) :
    trackGet (mergeTrackingSignals m p) k = (trackGet m k || pageTrackGet p k) := by
  cases k <;> rfl

/-- Helper: one page-merge step rewrites the tracking slot exactly through
`mergeTrackingSignals` (the later merges of the step leave it unchanged). -/
theorem mergePageStep_tracking {σ : Type} (detect : String → PageSignals σ)
    (extract : String → Contact) (homepageUrl : String)
    (merged : MergedSignals σ) (page : String × String) :
    (mergePageStep detect extract homepageUrl merged page).tracking
      = mergeTrackingSignals merged.tracking (detect page.2).tracking := by
  simp only [mergePageStep, mergeSeoSignals]
  by_cases h : page.1 = homepageUrl
  · rw [if_pos h]
  · rw [if_neg h]

/-- C5: across any sequence of page merges, a tracking flag that is true
before a merge is still true after it — `merged.tracking[key] ||=
pageSignal.tracking[key]` only ever raises flags, in any page order. -/
theorem trackingFlags_monotone {σ : Type} (detect : String → PageSignals σ)
    (extract : String → Contact) (homepageUrl : String)
    (merged : MergedSignals σ) (pages : List (String × String)) (k : TrackedTool)
    (h : trackGet merged.tracking k = true) :
    trackGet
        ((pages.foldl (mergePageStep detect extract homepageUrl) merged).tracking) k
      = true := by
  induction pages generalizing merged with
  | nil => exact h
  | cons page rest ih =>
    rw [List.foldl_cons]
    refine ih (mergePageStep detect extract homepageUrl merged page) ?_
    rw [mergePageStep_tracking, trackGet_mergeTracking, h, Bool.true_or]

/-- C5 witness: a record with ga4 already true keeps it true after merging a
page that reports nothing. -/
theorem trackingFlags_monotone_w :
    trackGet
        (([("https://site", "<html>")].foldl
            (mergePageStep demoDetect demoExtract "https://site")
            { createEmptySignalStructure Unit with
                tracking := { ga4 := true, gtm := false, meta_pixel := false
                              google_ads := false } }).tracking)
        TrackedTool.ga4
      = true :=
  trackingFlags_monotone demoDetect demoExtract "https://site"
    { createEmptySignalStructure Unit with
        tracking := { ga4 := true, gtm := false, meta_pixel := false
                      google_ads := false } }
    [("https://site", "<html>")] TrackedTool.ga4 rfl


-- Claim C3: invariants of the technology map.

/-- Helper: every entry of the map after a `techMap.set` step is an old
entry or the incoming hit keyed by its `uniqueKey`. -/
theorem techInsertGo_mem (t : Tech) :
    ∀ m : List (String × Tech), ∀ kv ∈ techInsertGo t m,
      kv ∈ m ∨ kv = (uniqueKey t, t)
  | [], kv, hkv => by
    simp only [techInsertGo, List.mem_singleton] at hkv
    exact Or.inr hkv
  | (k, v) :: m, kv, hkv => by
    simp only [techInsertGo] at hkv
    by_cases hk : k = uniqueKey t
    · rw [if_pos hk] at hkv
      by_cases hc : v.confidence < t.confidence
      · rw [if_pos hc] at hkv
        cases hkv with
        | head => exact Or.inr (by rw [hk])
        | tail _ h => exact Or.inl (List.mem_cons_of_mem _ h)
      · rw [if_neg hc] at hkv
        exact Or.inl hkv
    · rw [if_neg hk] at hkv
      cases hkv with
      | head => exact Or.inl (List.mem_cons_self _ _)
      | tail _ h =>
        rcases techInsertGo_mem t m kv h with h' | h'
        · exact Or.inl (List.mem_cons_of_mem _ h')
        · exact Or.inr h'

/-- Helper: a `techMap.set` step keeps the key list unchanged when the key
is present and appends the new key otherwise. -/
theorem techInsertGo_keys (t : Tech) :
    ∀ m : List (String × Tech),
      (techInsertGo t m).map Prod.fst =
        if uniqueKey t ∈ m.map Prod.fst then m.map Prod.fst
        else m.map Prod.fst ++ [uniqueKey t]
  | [] => by simp [techInsertGo]
  | (k, v) :: m => by
    by_cases hk : k = uniqueKey t
    · have hmem : uniqueKey t ∈ ((k, v) :: m).map Prod.fst := by
        rw [List.map_cons]
        exact hk ▸ List.mem_cons_self k (m.map Prod.fst)
      rw [if_pos hmem]
      simp only [techInsertGo, if_pos hk]
      by_cases hc : v.confidence < t.confidence
      · rw [if_pos hc, List.map_cons, List.map_cons, hk]
      · rw [if_neg hc]
    · simp only [techInsertGo, if_neg hk, List.map_cons, techInsertGo_keys t m]
      have hne : ¬uniqueKey t = k := fun h => hk h.symm
      by_cases hmem : uniqueKey t ∈ m.map Prod.fst
      · rw [if_pos hmem, if_pos (List.mem_cons_of_mem k hmem)]
      · rw [if_neg hmem, if_neg (by
          intro hc
          cases hc with
          | head => exact hne rfl
          | tail _ h => exact hmem h), List.cons_append]

/-- Helper: with pairwise-distinct keys, the entry holding the incoming
hit's key after a `techMap.set` step dominates the incoming confidence. -/
theorem techInsertGo_dominates (t : Tech) :
    ∀ m : List (String × Tech), (m.map Prod.fst).Nodup →
      ∀ kv ∈ techInsertGo t m, kv.1 = uniqueKey t →
        t.confidence ≤ kv.2.confidence
  | [], _, kv, hkv, _ => by
    simp only [techInsertGo, List.mem_singleton] at hkv
    rw [hkv]
  | (k, v) :: m, hnd, kv, hkv, hkey => by
    have hnd' : (m.map Prod.fst).Nodup := (List.nodup_cons.mp (by simpa using hnd)).2
    have hknot : k ∉ m.map Prod.fst := (List.nodup_cons.mp (by simpa using hnd)).1
    simp only [techInsertGo] at hkv
    by_cases hk : k = uniqueKey t
    · rw [if_pos hk] at hkv
      by_cases hc : v.confidence < t.confidence
      · rw [if_pos hc] at hkv
        cases hkv with
        | head => exact le_refl _
        | tail _ h =>
          exfalso
          have hmm : kv.1 ∈ m.map Prod.fst := List.mem_map_of_mem Prod.fst h
          rw [hkey, ← hk] at hmm
          exact hknot hmm
      · rw [if_neg hc] at hkv
        cases hkv with
        | head => exact le_of_not_lt hc
        | tail _ h =>
          exfalso
          have hmm : kv.1 ∈ m.map Prod.fst := List.mem_map_of_mem Prod.fst h
          rw [hkey, ← hk] at hmm
          exact hknot hmm
    · rw [if_neg hk] at hkv
      cases hkv with
      | head => exact absurd hkey hk
      | tail _ h => exact techInsertGo_dominates t m hnd' kv h hkey

/-- Helper: with pairwise-distinct keys, a `techMap.set` step never lowers
the confidence stored at any key. -/
theorem techInsertGo_ge_old (t : Tech) :
    ∀ m : List (String × Tech), (m.map Prod.fst).Nodup →
      ∀ kv ∈ techInsertGo t m, ∀ kv' ∈ m, kv'.1 = kv.1 →
        kv'.2.confidence ≤ kv.2.confidence
  | [], _, kv, _, kv', hkv', _ => absurd hkv' (List.not_mem_nil kv')
  | (k, v) :: m, hnd, kv, hkv, kv', hkv', hkey => by
    have hnd' : (m.map Prod.fst).Nodup := (List.nodup_cons.mp (by simpa using hnd)).2
    have hknot : k ∉ m.map Prod.fst := (List.nodup_cons.mp (by simpa using hnd)).1
    simp only [techInsertGo] at hkv
    by_cases hk : k = uniqueKey t
    · rw [if_pos hk] at hkv
      by_cases hc : v.confidence < t.confidence
      · rw [if_pos hc] at hkv
        cases hkv with
        | head =>
          cases hkv' with
          | head => exact le_of_lt hc
          | tail _ h' =>
            exact absurd (hkey ▸ List.mem_map_of_mem Prod.fst h') (by simpa using hknot)
        | tail _ h =>
          cases hkv' with
          | head =>
            exfalso
            have hmm : kv.1 ∈ m.map Prod.fst := List.mem_map_of_mem Prod.fst h
            rw [← hkey] at hmm
            exact hknot hmm
          | tail _ h' =>
            have heq : kv' = kv := List.inj_on_of_nodup_map (f := Prod.fst) hnd' h' h hkey
            rw [heq]
      · rw [if_neg hc] at hkv
        cases hkv with
        | head =>
          cases hkv' with
          | head => exact le_refl _
          | tail _ h' =>
            exact absurd (hkey ▸ List.mem_map_of_mem Prod.fst h') (by simpa using hknot)
        | tail _ h =>
          cases hkv' with
          | head =>
            exfalso
            have hmm : kv.1 ∈ m.map Prod.fst := List.mem_map_of_mem Prod.fst h
            rw [← hkey] at hmm
            exact hknot hmm
          | tail _ h' =>
            have heq : kv' = kv := List.inj_on_of_nodup_map (f := Prod.fst) hnd' h' h hkey
            rw [heq]
    · rw [if_neg hk] at hkv
      cases hkv with
      | head =>
        cases hkv' with
        | head => exact le_refl _
        | tail _ h' =>
          exfalso
          have hmm : kv'.1 ∈ m.map Prod.fst := List.mem_map_of_mem Prod.fst h'
          rw [hkey] at hmm
          exact hknot hmm
      | tail _ h =>
        cases hkv' with
        | head =>
          exfalso
          rcases techInsertGo_mem t m kv h with hmem | heq
          · have hmm : kv.1 ∈ m.map Prod.fst := List.mem_map_of_mem Prod.fst hmem
            rw [← hkey] at hmm
            exact hknot hmm
          · exact hk (hkey.trans (congrArg Prod.fst heq))
        | tail _ h' => exact techInsertGo_ge_old t m hnd' kv h kv' h' hkey

/-- Helper: keys persist across a `techMap.set` step, and the incoming
hit's key is present afterwards. -/
theorem techInsertGo_keys_mono (t : Tech) (m : List (String × Tech)) :
    (∀ k ∈ m.map Prod.fst, k ∈ (techInsertGo t m).map Prod.fst) ∧
      uniqueKey t ∈ (techInsertGo t m).map Prod.fst := by
  rw [techInsertGo_keys]
  by_cases hmem : uniqueKey t ∈ m.map Prod.fst
  · rw [if_pos hmem]
    exact ⟨fun k hk => hk, hmem⟩
  · rw [if_neg hmem]
    exact ⟨fun k hk => List.mem_append_left _ hk,
      List.mem_append_right _ (List.mem_singleton_self _)⟩

/-- Helper: one `techMap.set` step preserves the five map invariants
(entries keyed by their value's `uniqueKey`; pairwise-distinct keys; values
drawn from the processed hits; values dominating every processed hit of
their key; every processed hit's key present). -/
theorem techInsert_inv (t : Tech) (processed : List Tech) (m : List (String × Tech))
    (h1 : ∀ kv ∈ m, kv.1 = uniqueKey kv.2)
    (h2 : (m.map Prod.fst).Nodup)
    (h3 : ∀ kv ∈ m, kv.2 ∈ processed)
    (h4 : ∀ kv ∈ m, ∀ u ∈ processed, uniqueKey u = kv.1 → u.confidence ≤ kv.2.confidence)
    (h5 : ∀ u ∈ processed, ∃ kv ∈ m, kv.1 = uniqueKey u) :
    (∀ kv ∈ techInsertGo t m, kv.1 = uniqueKey kv.2) ∧
    ((techInsertGo t m).map Prod.fst).Nodup ∧
    (∀ kv ∈ techInsertGo t m, kv.2 ∈ processed ++ [t]) ∧
    (∀ kv ∈ techInsertGo t m, ∀ u ∈ processed ++ [t],
      uniqueKey u = kv.1 → u.confidence ≤ kv.2.confidence) ∧
    (∀ u ∈ processed ++ [t], ∃ kv ∈ techInsertGo t m, kv.1 = uniqueKey u) := by
  refine ⟨?_, ?_, ?_, ?_, ?_⟩
  · intro kv hkv
    rcases techInsertGo_mem t m kv hkv with h | h
    · exact h1 kv h
    · rw [h]
  · rw [techInsertGo_keys]
    by_cases hmem : uniqueKey t ∈ m.map Prod.fst
    · rw [if_pos hmem]; exact h2
    · rw [if_neg hmem]
      simp only [List.nodup_append, List.nodup_singleton, List.disjoint_singleton]
      exact ⟨h2, trivial, hmem⟩
  · intro kv hkv
    rcases techInsertGo_mem t m kv hkv with h | h
    · exact List.mem_append_left _ (h3 kv h)
    · rw [h]
      exact List.mem_append_right _ (List.mem_singleton_self t)
  · intro kv hkv u hu hkey
    rcases List.mem_append.mp hu with hup | hut
    · rcases techInsertGo_mem t m kv hkv with hm | he
      · exact h4 kv hm u hup hkey
      · obtain ⟨kv0, hkv0, hkv0k⟩ := h5 u hup
        have hle1 : u.confidence ≤ kv0.2.confidence := h4 kv0 hkv0 u hup hkv0k.symm
        have hle2 : kv0.2.confidence ≤ kv.2.confidence :=
          techInsertGo_ge_old t m h2 kv hkv kv0 hkv0 (hkv0k.trans hkey)
        exact le_trans hle1 hle2
    · have hut2 : u = t := List.mem_singleton.mp hut
      have hkk : kv.1 = uniqueKey t := by rw [← hkey, hut2]
      rw [hut2]
      exact techInsertGo_dominates t m h2 kv hkv hkk
  · intro u hu
    rcases List.mem_append.mp hu with hup | hut
    · obtain ⟨kv0, hkv0, hkv0k⟩ := h5 u hup
      have hkmem : kv0.1 ∈ (techInsertGo t m).map Prod.fst :=
        (techInsertGo_keys_mono t m).1 kv0.1 (List.mem_map_of_mem Prod.fst hkv0)
      obtain ⟨kv', hkv', hkv'k⟩ := List.mem_map.mp hkmem
      exact ⟨kv', hkv', by rw [hkv'k, hkv0k]⟩
    · rw [List.mem_singleton.mp hut]
      obtain ⟨kv', hkv', hkv'k⟩ := List.mem_map.mp (techInsertGo_keys_mono t m).2
      exact ⟨kv', hkv', by rw [hkv'k]⟩

/-- Helper: the five map invariants hold after folding any hit list into
any map satisfying them. -/
theorem techFold_inv_aux :
    ∀ (l : List Tech) (processed : List Tech) (m : List (String × Tech)),
      (∀ kv ∈ m, kv.1 = uniqueKey kv.2) →
      (m.map Prod.fst).Nodup →
      (∀ kv ∈ m, kv.2 ∈ processed) →
      (∀ kv ∈ m, ∀ u ∈ processed, uniqueKey u = kv.1 → u.confidence ≤ kv.2.confidence) →
      (∀ u ∈ processed, ∃ kv ∈ m, kv.1 = uniqueKey u) →
      (∀ kv ∈ l.foldl (fun acc t => techInsertGo t acc) m, kv.1 = uniqueKey kv.2) ∧
      ((l.foldl (fun acc t => techInsertGo t acc) m).map Prod.fst).Nodup ∧
      (∀ kv ∈ l.foldl (fun acc t => techInsertGo t acc) m, kv.2 ∈ processed ++ l) ∧
      (∀ kv ∈ l.foldl (fun acc t => techInsertGo t acc) m, ∀ u ∈ processed ++ l,
        uniqueKey u = kv.1 → u.confidence ≤ kv.2.confidence) ∧
      (∀ u ∈ processed ++ l, ∃ kv ∈ l.foldl (fun acc t => techInsertGo t acc) m,
        kv.1 = uniqueKey u)
  | [], processed, m, h1, h2, h3, h4, h5 => by
    simp only [List.foldl_nil, List.append_nil]
    exact ⟨h1, h2, h3, h4, h5⟩
  | t :: l, processed, m, h1, h2, h3, h4, h5 => by
    obtain ⟨g1, g2, g3, g4, g5⟩ := techInsert_inv t processed m h1 h2 h3 h4 h5
    have hres := techFold_inv_aux l (processed ++ [t]) (techInsertGo t m) g1 g2 g3 g4 g5
    simpa using hres

/-- Helper: the five invariants of the completed technology map. -/
theorem techFold_inv (ts : List Tech) :
    (∀ kv ∈ techFold ts, kv.1 = uniqueKey kv.2) ∧
    ((techFold ts).map Prod.fst).Nodup ∧
    (∀ kv ∈ techFold ts, kv.2 ∈ ts) ∧
    (∀ kv ∈ techFold ts, ∀ u ∈ ts, uniqueKey u = kv.1 → u.confidence ≤ kv.2.confidence) ∧
    (∀ u ∈ ts, ∃ kv ∈ techFold ts, kv.1 = uniqueKey u) := by
  have h := techFold_inv_aux ts [] []
    (by intro kv hkv; exact absurd hkv (List.not_mem_nil kv))
    (by simp)
    (by intro kv hkv; exact absurd hkv (List.not_mem_nil kv))
    (by intro kv hkv; exact absurd hkv (List.not_mem_nil kv))
    (by intro u hu; exact absurd hu (List.not_mem_nil u))
  simpa [techFold] using h

/-- Helper: the descending-confidence comparator is transitive. -/
theorem techLe_trans (a b c : Tech) (h1 : techLe a b = true) (h2 : techLe b c = true) :
    techLe a c = true := by
  simp only [techLe, decide_eq_true_eq] at h1 h2 ⊢
  exact le_trans h2 h1

/-- Helper: the descending-confidence comparator is total. -/
theorem techLe_total (a b : Tech) : techLe a b = true ∨ techLe b a = true := by
  simp only [techLe, decide_eq_true_eq]
  exact le_total b.confidence a.confidence

/-- C3: `detectStack`'s deduplicated technology list never holds two entries
with the same (name, category) pair, every retained entry is an input hit
whose confidence dominates all input hits with its pair (hence equals their
maximum), and the list is sorted by descending confidence. -/
theorem deduplicateTechnologies_spec (ts : List Tech) :
    ((deduplicateTechnologies ts).Pairwise
      (fun a b => ¬(a.name = b.name ∧ a.category = b.category))) ∧
    (∀ t ∈ deduplicateTechnologies ts, t ∈ ts ∧
      ∀ u ∈ ts, u.name = t.name → u.category = t.category →
        u.confidence ≤ t.confidence) ∧
    ((deduplicateTechnologies ts).Pairwise
      (fun a b => b.confidence ≤ a.confidence)) := by
  obtain ⟨h1, h2, h3, h4, _⟩ := techFold_inv ts
  have hperm : (deduplicateTechnologies ts).Perm ((techFold ts).map Prod.snd) :=
    sortB_perm techLe ((techFold ts).map Prod.snd)
  have hkeys : (techFold ts).map Prod.fst
      = ((techFold ts).map Prod.snd).map uniqueKey := by
    rw [List.map_map]
    exact List.map_congr_left h1
  have hvalpw : ((techFold ts).map Prod.snd).Pairwise
      (fun a b => uniqueKey a ≠ uniqueKey b) := by
    have hnd := h2
    rw [hkeys] at hnd
    exact (List.pairwise_map.mp hnd)
  refine ⟨?_, ?_, ?_⟩
  · refine List.Pairwise.perm (hvalpw.imp ?_) hperm.symm ?_
    · intro a b hne hpair
      exact hne (by simp only [uniqueKey, hpair.1, hpair.2])
    · intro x y hxy hpair
      exact hxy ⟨hpair.1.symm, hpair.2.symm⟩
  · intro t ht
    have hmem : t ∈ (techFold ts).map Prod.snd := hperm.subset ht
    obtain ⟨kv, hkv, hkvt⟩ := List.mem_map.mp hmem
    refine ⟨by rw [← hkvt]; exact h3 kv hkv, ?_⟩
    intro u hu hn hc
    have hkey : uniqueKey u = kv.1 := by
      rw [h1 kv hkv, hkvt]
      simp only [uniqueKey, hn, hc]
    have := h4 kv hkv u hu hkey
    rw [← hkvt]
    exact this
  · have := pairwise_sortB techLe techLe_trans techLe_total ((techFold ts).map Prod.snd)
    refine this.imp ?_
    intro a b h
    simpa only [techLe, decide_eq_true_eq] using h

/-- C3 witness: applied at a concrete hit list the duplicated WordPress pair
keeps its higher hit (which is an input hit), and the output is sorted. -/
theorem deduplicateTechnologies_spec_w :
    ({ name := "WordPress", category := "CMS", confidence := 1,
        evidence := "wp-content" } : Tech) ∈ demoHits ∧
    (deduplicateTechnologies demoHits).Pairwise
      (fun a b => b.confidence ≤ a.confidence) :=
  ⟨((deduplicateTechnologies_spec demoHits).2.1
      { name := "WordPress", category := "CMS", confidence := 1, evidence := "wp-content" }
      (by decide)).1,
    (deduplicateTechnologies_spec demoHits).2.2⟩

-- Claim C7 (corrected): idempotence holds, order-independence fails.

/-- Helper: every class member bounds below the class maximum. -/
theorem le_keyConf (ts : List Tech) (k : String) (u : Tech) (hu : u ∈ ts)
    (hk : uniqueKey u = k) : ((u.confidence : ℚ) : WithBot ℚ) ≤ keyConf ts k := by
  induction ts with
  | nil => exact absurd hu (List.not_mem_nil u)
  | cons t rest ih =>
    simp only [keyConf, List.filter_cons]
    cases hu with
    | head =>
      rw [if_pos (by simp [hk])]
      exact le_max_left _ _
    | tail _ hmem =>
      by_cases ht : uniqueKey t = k
      · rw [if_pos (by simp [ht])]
        simp only [List.foldr_cons]
        exact le_trans (ih hmem) (le_max_right _ _)
      · rw [if_neg (by simp [ht])]
        exact ih hmem

/-- Helper: the class maximum is bounded by any bound on the class. -/
theorem keyConf_le (ts : List Tech) (k : String) (B : WithBot ℚ)
    (h : ∀ u ∈ ts, uniqueKey u = k → ((u.confidence : ℚ) : WithBot ℚ) ≤ B) :
    keyConf ts k ≤ B := by
  induction ts with
  | nil => exact bot_le
  | cons t rest ih =>
    simp only [keyConf, List.filter_cons]
    by_cases ht : uniqueKey t = k
    · rw [if_pos (by simp [ht])]
      simp only [List.foldr_cons]
      exact max_le (h t (List.mem_cons_self t rest) ht)
        (ih (fun u hu hk => h u (List.mem_cons_of_mem t hu) hk))
    · rw [if_neg (by simp [ht])]
      exact ih (fun u hu hk => h u (List.mem_cons_of_mem t hu) hk)

/-- Helper: the per-key maximum is invariant under permutation. -/
theorem keyConf_perm (l l2 : List Tech) (h : l.Perm l2) (k : String) :
    keyConf l k = keyConf l2 k := by
  simp only [keyConf]
  exact (h.filter (fun t => uniqueKey t == k)).foldr_eq'
    (fun x _ y _ z => by
      rw [max_left_comm])
    ⊥

/-- Helper: the retained per-key confidences of the deduplicated list equal
the per-key maxima of the input hits. -/
theorem keyConf_dedup (ts : List Tech) (k : String) :
    keyConf (deduplicateTechnologies ts) k = keyConf ts k := by
  obtain ⟨h1, _, h3, h4, h5⟩ := techFold_inv ts
  have hperm : (deduplicateTechnologies ts).Perm ((techFold ts).map Prod.snd) :=
    sortB_perm techLe ((techFold ts).map Prod.snd)
  rw [keyConf_perm _ _ hperm k]
  refine le_antisymm ?_ ?_
  · refine keyConf_le _ k _ ?_
    intro v hv hk
    obtain ⟨kv, hkv, hkvv⟩ := List.mem_map.mp hv
    rw [← hkvv]
    exact le_keyConf ts k kv.2 (h3 kv hkv) (by rw [← hkvv] at hk; exact hk)
  · refine keyConf_le _ k _ ?_
    intro u hu hk
    obtain ⟨kv, hkv, hkvk⟩ := h5 u hu
    have hle : u.confidence ≤ kv.2.confidence := h4 kv hkv u hu hkvk.symm
    have hmem : kv.2 ∈ (techFold ts).map Prod.snd := List.mem_map_of_mem Prod.snd hkv
    have hkey2 : uniqueKey kv.2 = k := by
      rw [← h1 kv hkv, hkvk, hk]
    calc ((u.confidence : ℚ) : WithBot ℚ)
        ≤ ((kv.2.confidence : ℚ) : WithBot ℚ) := by exact_mod_cast hle
      _ ≤ keyConf ((techFold ts).map Prod.snd) k := le_keyConf _ k kv.2 hmem hkey2

/-- Helper: inserting a hit whose key is absent appends it. -/
theorem techInsertGo_fresh (t : Tech) :
    ∀ m : List (String × Tech), uniqueKey t ∉ m.map Prod.fst →
      techInsertGo t m = m ++ [(uniqueKey t, t)]
  | [], _ => rfl
  | (k, v) :: m, hfresh => by
    have hk : ¬k = uniqueKey t := by
      intro hk
      exact hfresh (by rw [List.map_cons, hk]; exact List.mem_cons_self _ _)
    simp only [techInsertGo, if_neg hk, List.cons_append, List.cons.injEq, true_and]
    exact techInsertGo_fresh t m
      (fun hmem => hfresh (by rw [List.map_cons]; exact List.mem_cons_of_mem _ hmem))

/-- Helper: folding a list of hits with pairwise-distinct keys onto a map
disjoint from them appends them in order. -/
theorem techFold_of_nodup_keys :
    ∀ (vs : List Tech) (m : List (String × Tech)),
      (vs.map uniqueKey).Nodup →
      (∀ t ∈ vs, uniqueKey t ∉ m.map Prod.fst) →
      vs.foldl (fun acc t => techInsertGo t acc) m
        = m ++ vs.map (fun t => (uniqueKey t, t))
  | [], m, _, _ => by simp
  | t :: vs, m, hnd, hdisj => by
    have hfresh : uniqueKey t ∉ m.map Prod.fst := hdisj t (List.mem_cons_self t vs)
    rw [List.foldl_cons, techInsertGo_fresh t m hfresh,
      techFold_of_nodup_keys vs (m ++ [(uniqueKey t, t)])
        ((List.nodup_cons.mp (by simpa using hnd)).2) ?_]
    · simp
    · intro u hu
      rw [List.map_append]
      intro hmem
      rcases List.mem_append.mp hmem with hm | hs
      · exact hdisj u (List.mem_cons_of_mem t hu) hm
      · have : uniqueKey u = uniqueKey t := by simpa using hs
        exact (List.nodup_cons.mp (by simpa using hnd)).1
          (this ▸ List.mem_map_of_mem uniqueKey hu)

/-- Helper: the deduplicated list has pairwise-distinct keys. -/
theorem dedup_keys_nodup (ts : List Tech) :
    ((deduplicateTechnologies ts).map uniqueKey).Nodup := by
  obtain ⟨h1, h2, _, _, _⟩ := techFold_inv ts
  have hkeys : (techFold ts).map Prod.fst
      = ((techFold ts).map Prod.snd).map uniqueKey := by
    rw [List.map_map]
    exact List.map_congr_left h1
  have hvals : (((techFold ts).map Prod.snd).map uniqueKey).Nodup := by
    rw [← hkeys]
    exact h2
  have hperm : ((deduplicateTechnologies ts).map uniqueKey).Perm
      (((techFold ts).map Prod.snd).map uniqueKey) :=
    (sortB_perm techLe ((techFold ts).map Prod.snd)).map uniqueKey
  exact hvals.perm hperm.symm

/-- C7 counterexample: two distinct equal-confidence hits in the two orders
are permutations of each other, yet deduplication returns different lists —
the reduction is not order-independent. -/
theorem dedupTech_orderDependent_cex :
    ([techA, techB] : List Tech).Perm [techB, techA] ∧
    deduplicateTechnologies [techA, techB] ≠ deduplicateTechnologies [techB, techA] := by
  constructor
  · exact List.Perm.swap techB techA []
  · decide

/-- C7 amended: the reduction is idempotent, and under any permutation of
the hit list the retained keys and each key's retained confidence are
unchanged (`keyConf` agrees everywhere); but the output list itself can
differ (ordering of equal-confidence entries and the representative kept on
within-key ties follow first-seen order), as the counterexample shows. -/
theorem dedupTech_idem_keyConf (l l2 : List Tech) (h : l.Perm l2) :
    deduplicateTechnologies (deduplicateTechnologies l) = deduplicateTechnologies l ∧
    ∀ k : String, keyConf (deduplicateTechnologies l) k
      = keyConf (deduplicateTechnologies l2) k := by
  constructor
  · have hnd := dedup_keys_nodup l
    have hfold : techFold (deduplicateTechnologies l)
        = (deduplicateTechnologies l).map (fun t => (uniqueKey t, t)) := by
      have := techFold_of_nodup_keys (deduplicateTechnologies l) [] hnd
        (fun t _ => by simp)
      simpa [techFold] using this
    have hvals : (techFold (deduplicateTechnologies l)).map Prod.snd
        = deduplicateTechnologies l := by
      rw [hfold, List.map_map]
      exact List.map_id' (deduplicateTechnologies l)
    show sortB techLe ((techFold (deduplicateTechnologies l)).map Prod.snd)
        = deduplicateTechnologies l
    rw [hvals]
    exact sortB_of_pairwise techLe _
      (pairwise_sortB techLe techLe_trans techLe_total _)
  · intro k
    rw [keyConf_dedup l k, keyConf_dedup l2 k]
    exact keyConf_perm l l2 h k

/-- C7 witness: the amended theorem applied to a concrete hit list and a
permutation of it. -/
theorem dedupTech_idem_keyConf_w :
    deduplicateTechnologies (deduplicateTechnologies demoHits) = deduplicateTechnologies demoHits ∧
    keyConf (deduplicateTechnologies demoHits) "WordPress::CMS"
      = keyConf (deduplicateTechnologies demoHits.reverse) "WordPress::CMS" :=
  ⟨(dedupTech_idem_keyConf demoHits demoHits.reverse (by decide)).1,
    (dedupTech_idem_keyConf demoHits demoHits.reverse (by decide)).2 "WordPress::CMS"⟩

-- Claim C4.

/-- Helper: the descending-score comparator is transitive. -/
theorem linkLe_trans (a b c : String) (h1 : linkLe a b = true) (h2 : linkLe b c = true) :
    linkLe a c = true := by
  simp only [linkLe, decide_eq_true_eq] at h1 h2 ⊢
  exact le_trans h2 h1

/-- Helper: the descending-score comparator is total. -/
theorem linkLe_total (a b : String) : linkLe a b = true ∨ linkLe b a = true := by
  simp only [linkLe, decide_eq_true_eq]
  exact le_total (scoreLinkRelevance b) (scoreLinkRelevance a)

/-- Helper: `uniq` returns a subset of its input. -/
theorem uniq_subset (l : List String) : ∀ x ∈ uniq l, x ∈ l := by
  have haux : ∀ (l' acc : List String),
      ∀ x ∈ l'.foldl (fun acc s => if s ∈ acc then acc else acc ++ [s]) acc,
        x ∈ acc ∨ x ∈ l' := by
    intro l'
    induction l' with
    | nil => intro acc x hx; exact Or.inl hx
    | cons s rest ih =>
      intro acc x hx
      rw [List.foldl_cons] at hx
      rcases ih _ x hx with hacc | hrest
      · by_cases hs : s ∈ acc
        · rw [if_pos hs] at hacc
          exact Or.inl hacc
        · rw [if_neg hs] at hacc
          rcases List.mem_append.mp hacc with h | h
          · exact Or.inl h
          · exact Or.inr (by rw [List.mem_singleton.mp h]; exact List.mem_cons_self s rest)
      · exact Or.inr (List.mem_cons_of_mem s hrest)
  intro x hx
  rcases haux (l.filter (fun s => !(s == ""))) [] x hx with h | h
  · exact absurd h (List.not_mem_nil x)
  · exact (List.mem_filter.mp h).1

/-- C4: whenever `pickImportantLinks` returns (the base URL parses), it
returns at most `maxLinks` URLs, every returned URL has the same host as
the base URL, every returned URL scores strictly positive, and the list is
ordered by descending score. -/
theorem pickImportantLinks_spec (M : UrlModel) (rawLinks : List String)
    (baseUrl : String) (maxLinks : Nat) (result : List String)
    (h : pickImportantLinks M rawLinks baseUrl maxLinks = some result) :
    result.length ≤ maxLinks ∧
    (∀ u ∈ result, M.host u = M.host baseUrl) ∧
    (∀ u ∈ result, 0 < scoreLinkRelevance u) ∧
    result.Pairwise (fun a b => scoreLinkRelevance b ≤ scoreLinkRelevance a) := by
  simp only [pickImportantLinks] at h
  rcases hbase : M.host baseUrl with _ | baseHost
  · rw [normalizeLinks, hbase] at h
    simp at h
  · rw [normalizeLinks, hbase] at h
    simp only [Option.map_some', Option.some.injEq] at h
    set candidates :=
      ((rawLinks.filterMap (fun href => M.resolve href baseUrl)).filter
          (fun u => !(u == ""))).filter
        (fun u => M.host u == some baseHost) with hcand
    have hsub : ∀ u ∈ result, u ∈ sortB linkLe (uniq candidates) ∧
        0 < scoreLinkRelevance u := by
      intro u hu
      rw [← h] at hu
      have hu2 := List.take_subset maxLinks _ hu
      have hu3 := List.mem_filter.mp hu2
      exact ⟨hu3.1, by simpa using hu3.2⟩
    refine ⟨?_, ?_, fun u hu => (hsub u hu).2, ?_⟩
    · rw [← h]
      exact List.length_take_le maxLinks _
    · intro u hu
      have hmem : u ∈ uniq candidates :=
        (mem_sortB linkLe (uniq candidates) u).mp (hsub u hu).1
      have hcmem : u ∈ candidates := uniq_subset candidates u hmem
      have := (List.mem_filter.mp hcmem).2
      simpa using this
    · have hp := pairwise_sortB linkLe linkLe_trans linkLe_total (uniq candidates)
      have hfilter := hp.filter (fun url => decide (0 < scoreLinkRelevance url))
      have htake := hfilter.sublist (List.take_sublist maxLinks _)
      rw [← h]
      refine htake.imp ?_
      intro a b hab
      simpa only [linkLe, decide_eq_true_eq] using hab

/-- C4 witness: the spec applied to a concrete URL model and link list. -/
theorem pickImportantLinks_spec_w :
    (["contact"] : List String).length ≤ 2 ∧ 0 < scoreLinkRelevance "contact" :=
  ⟨(pickImportantLinks_spec demoUrlModel ["contact", "blog"] "b" 2 ["contact"]
      (by decide)).1,
    (pickImportantLinks_spec demoUrlModel ["contact", "blog"] "b" 2 ["contact"]
      (by decide)).2.2.1 "contact" (List.mem_singleton_self _)⟩

-- Claim C1.

/-- Helper: a page-merge step never touches `crawled_pages`. -/
theorem mergePageStep_crawled {σ : Type} (detect : String → PageSignals σ)
    (extract : String → Contact) (homepageUrl : String)
    (merged : MergedSignals σ) (page : String × String) :
    (mergePageStep detect extract homepageUrl merged page).crawled_pages
      = merged.crawled_pages := by
  simp only [mergePageStep, mergeSeoSignals]
  by_cases h : page.1 = homepageUrl
  · rw [if_pos h]
  · rw [if_neg h]

/-- Helper: the merge loop never touches `crawled_pages`. -/
theorem foldl_mergePageStep_crawled {σ : Type} (detect : String → PageSignals σ)
    (extract : String → Contact) (homepageUrl : String) :
    ∀ (pages : List (String × String)) (merged : MergedSignals σ),
      ((pages.foldl (mergePageStep detect extract homepageUrl) merged).crawled_pages)
        = merged.crawled_pages
  | [], _ => rfl
  | page :: rest, merged => by
    rw [List.foldl_cons, foldl_mergePageStep_crawled detect extract homepageUrl rest,
      mergePageStep_crawled]

/-- Helper: the pages fetched by `fetchAdditionalPages` are exactly the
links whose fetch succeeds, in order. -/
theorem fetchAdditionalPages_fst (fetch : String → Except String String) :
    ∀ (links : List String) (acc : List (String × String)),
      ((links.foldl
          (fun pages link =>
            match fetch link with
            | Except.ok html => pages ++ [(link, html)]
            | Except.error _ => pages)
          acc).map Prod.fst)
        = acc.map Prod.fst ++ links.filter (fetchSucceeds fetch)
  | [], acc => by simp
  | link :: rest, acc => by
    rw [List.foldl_cons]
    rcases hf : fetch link with e | html
    · have hfail : fetchSucceeds fetch link = false := by
        simp [fetchSucceeds, hf]
      simp only [hf]
      rw [fetchAdditionalPages_fst fetch rest acc, List.filter_cons, hfail]
      simp
    · have hok : fetchSucceeds fetch link = true := by
        simp [fetchSucceeds, hf]
      simp only [hf]
      rw [fetchAdditionalPages_fst fetch rest (acc ++ [(link, html)]), List.filter_cons, hok]
      simp

/-- C1: a homepage fetch failure propagates out of `collectSignals` (no
record is returned), while after a successful homepage fetch a record is
always returned and a failing secondary-page fetch is silently excluded:
`crawled_pages` is the homepage followed by exactly the ranked links whose
fetch succeeded. -/
theorem collectSignals_homepage_fatal {σ : Type}
    (fetch : String → Except String String) (pick : String → String → List String)
    (detect : String → PageSignals σ) (extract : String → Contact) (url : String) :
    (∀ e, fetch url = Except.error e →
      collectSignals fetch pick detect extract url = Except.error e) ∧
    (∀ html, fetch url = Except.ok html →
      isOkE (collectSignals fetch pick detect extract url) = true ∧
      crawledPagesOf (collectSignals fetch pick detect extract url)
        = some (url :: (pick html url).filter (fetchSucceeds fetch))) := by
  constructor
  · intro e he
    simp only [collectSignals, he]
  · intro html hh
    simp only [collectSignals, hh]
    refine ⟨rfl, ?_⟩
    show some ((processAndMergeSignals detect extract
      ((url, html) :: fetchAdditionalPages fetch (pick html url)) url).crawled_pages) = _
    rw [processAndMergeSignals, foldl_mergePageStep_crawled]
    have := fetchAdditionalPages_fst fetch (pick html url) []
    simp only [List.map_nil, List.nil_append] at this
    simp only [List.map_cons, fetchAdditionalPages, this]

/-- C1 witness: a failing homepage URL propagates its error; a succeeding
homepage with one failing and one succeeding ranked link still returns a
record. -/
theorem collectSignals_homepage_fatal_w :
    collectSignals demoFetch demoPick demoDetect demoExtract "https://site/contact"
      = Except.error "timeout" ∧
    isOkE (collectSignals demoFetch demoPick demoDetect demoExtract "https://site")
      = true :=
  ⟨(collectSignals_homepage_fatal demoFetch demoPick demoDetect demoExtract
      "https://site/contact").1 "timeout" rfl,
    ((collectSignals_homepage_fatal demoFetch demoPick demoDetect demoExtract
      "https://site").2 "<html>" rfl).1⟩

-- Claim C8: the 7-digit suffix rule of deduplicatePhones.

/-- Helper: every entry of the phone map after an insertion is an old entry
or the incoming phone keyed by its canonical key. -/
theorem phoneInsertGo_mem (p : String) :
    ∀ m : List (String × String), ∀ kv ∈ phoneInsertGo p m,
      kv ∈ m ∨ kv = (canonKey p, p)
  | [], kv, hkv => by
    simp only [phoneInsertGo, List.mem_singleton] at hkv
    exact Or.inr hkv
  | (k, v) :: m, kv, hkv => by
    simp only [phoneInsertGo] at hkv
    by_cases hk : k = canonKey p
    · rw [if_pos hk] at hkv
      by_cases hc : (jsStartsWith p "+" && !jsStartsWith v "+") = true
      · rw [if_pos hc] at hkv
        cases hkv with
        | head => exact Or.inr (by rw [hk])
        | tail _ h => exact Or.inl (List.mem_cons_of_mem _ h)
      · rw [if_neg hc] at hkv
        exact Or.inl hkv
    · rw [if_neg hk] at hkv
      cases hkv with
      | head => exact Or.inl (List.mem_cons_self _ _)
      | tail _ h =>
        rcases phoneInsertGo_mem p m kv h with h' | h'
        · exact Or.inl (List.mem_cons_of_mem _ h')
        · exact Or.inr h'

/-- Helper: a phone-map insertion keeps the key list unchanged when the key
is present and appends the new key otherwise. -/
theorem phoneInsertGo_keys (p : String) :
    ∀ m : List (String × String),
      (phoneInsertGo p m).map Prod.fst =
        if canonKey p ∈ m.map Prod.fst then m.map Prod.fst
        else m.map Prod.fst ++ [canonKey p]
  | [] => by simp [phoneInsertGo]
  | (k, v) :: m => by
    by_cases hk : k = canonKey p
    · have hmem : canonKey p ∈ ((k, v) :: m).map Prod.fst := by
        rw [List.map_cons]
        exact hk ▸ List.mem_cons_self k (m.map Prod.fst)
      rw [if_pos hmem]
      simp only [phoneInsertGo, if_pos hk]
      by_cases hc : (jsStartsWith p "+" && !jsStartsWith v "+") = true
      · rw [if_pos hc, List.map_cons, List.map_cons, hk]
      · rw [if_neg hc]
    · simp only [phoneInsertGo, if_neg hk, List.map_cons, phoneInsertGo_keys p m]
      have hne : ¬canonKey p = k := fun h => hk h.symm
      by_cases hmem : canonKey p ∈ m.map Prod.fst
      · rw [if_pos hmem, if_pos (List.mem_cons_of_mem k hmem)]
      · rw [if_neg hmem, if_neg (by
          intro hc
          cases hc with
          | head => exact hne rfl
          | tail _ h => exact hmem h), List.cons_append]

/-- Helper: the phone map's entries are keyed by their value's canonical
key and its keys are pairwise distinct. -/
theorem phoneByKey_inv (phones : List String) :
    (∀ kv ∈ phoneByKey phones, kv.1 = canonKey kv.2) ∧
    ((phoneByKey phones).map Prod.fst).Nodup := by
  have haux : ∀ (l : List String) (m : List (String × String)),
      (∀ kv ∈ m, kv.1 = canonKey kv.2) → (m.map Prod.fst).Nodup →
      (∀ kv ∈ l.foldl (fun m p => phoneInsertGo p m) m, kv.1 = canonKey kv.2) ∧
      ((l.foldl (fun m p => phoneInsertGo p m) m).map Prod.fst).Nodup := by
    intro l
    induction l with
    | nil => intro m h1 h2; exact ⟨h1, h2⟩
    | cons p rest ih =>
      intro m h1 h2
      rw [List.foldl_cons]
      refine ih (phoneInsertGo p m) ?_ ?_
      · intro kv hkv
        rcases phoneInsertGo_mem p m kv hkv with h | h
        · exact h1 kv h
        · rw [h]
      · rw [phoneInsertGo_keys]
        by_cases hmem : canonKey p ∈ m.map Prod.fst
        · rw [if_pos hmem]; exact h2
        · rw [if_neg hmem]
          simp only [List.nodup_append, List.nodup_singleton, List.disjoint_singleton]
          exact ⟨h2, trivial, hmem⟩
  have h := haux phones [] (by intro kv hkv; exact absurd hkv (List.not_mem_nil kv)) (by simp)
  exact ⟨h.1, h.2⟩

/-- Helper: a successful map lookup is a map entry. -/
theorem alookup_mem {α : Type} (k : String) (v : α) :
    ∀ m : List (String × α), alookup k m = some v → (k, v) ∈ m
  | [], h => by simp [alookup] at h
  | (k', v') :: m, h => by
    simp only [alookup] at h
    by_cases hk : k = k'
    · rw [if_pos hk] at h
      have hv : v' = v := Option.some.inj h
      rw [hk, ← hv]
      exact List.mem_cons_self _ _
    · rw [if_neg hk] at h
      exact List.mem_cons_of_mem _ (alookup_mem k v m h)

/-- Helper: membership in the filtered key list of `deduplicatePhones`. -/
theorem mem_filterShortSuffix (keys : List String) (k : String) :
    k ∈ filterShortSuffix keys ↔
      k ∈ keys ∧ (10 ≤ k.data.length ∨
        ∀ other ∈ keys, ¬(k.data.length < other.data.length ∧ k.data <:+ other.data)) := by
  rw [filterShortSuffix, List.mem_filter]
  constructor
  · rintro ⟨hmem, hpred⟩
    refine ⟨hmem, ?_⟩
    rcases (Bool.or_eq_true _ _).mp hpred with h10 | hneg
    · exact Or.inl (of_decide_eq_true h10)
    · right
      intro other hother hcontra
      have hany : List.any keys
          (fun other => decide (k.data.length < other.data.length) && jsEndsWith other k)
            = false := (Bool.not_eq_true' _) ▸ hneg
      refine List.any_eq_false.mp hany other hother ?_
      rw [Bool.and_eq_true]
      exact ⟨decide_eq_true hcontra.1, by rw [jsEndsWith]; exact decide_eq_true hcontra.2⟩
  · rintro ⟨hmem, hprop⟩
    refine ⟨hmem, ?_⟩
    rcases hprop with h10 | hall
    · exact (Bool.or_eq_true _ _).mpr (Or.inl (decide_eq_true h10))
    · refine (Bool.or_eq_true _ _).mpr (Or.inr ?_)
      rw [Bool.not_eq_true', List.any_eq_false]
      intro other hother hcontra
      rw [Bool.and_eq_true, jsEndsWith] at hcontra
      exact hall other hother ⟨of_decide_eq_true hcontra.1, of_decide_eq_true hcontra.2⟩

/-- Helper: every key's length is bounded by the greatest key length. -/
theorem len_le_maxKeyLen : ∀ (keys : List String) (k : String), k ∈ keys →
    k.data.length ≤ maxKeyLen keys
  | [], k, h => absurd h (List.not_mem_nil k)
  | j :: keys, k, h => by
    simp only [maxKeyLen, List.foldr_cons]
    cases h with
    | head => exact le_max_left _ _
    | tail _ h =>
      exact le_trans (len_le_maxKeyLen keys k h) (le_max_right _ _)

/-- Helper: every key (retained or dropped) is a suffix of some retained
key that is at least as long — the suffix-chase behind step 2 of
`deduplicatePhones` always lands on a retained key. -/
theorem filtered_cover_aux (keys : List String) :
    ∀ (n : Nat) (j : String), j ∈ keys → maxKeyLen keys - j.data.length < n →
      ∃ q ∈ filterShortSuffix keys, j.data.length ≤ q.data.length ∧ j.data <:+ q.data := by
  intro n
  induction n with
  | zero => intro j _ hbound; omega
  | succ n ih =>
    intro j hj hbound
    by_cases hjf : j ∈ filterShortSuffix keys
    · exact ⟨j, hjf, le_refl _, List.suffix_refl _⟩
    · have hnot : ¬(j ∈ keys ∧ (10 ≤ j.data.length ∨
          ∀ other ∈ keys, ¬(j.data.length < other.data.length ∧ j.data <:+ other.data))) :=
        fun hcon => hjf ((mem_filterShortSuffix keys j).mpr hcon)
      have hnd : ¬(10 ≤ j.data.length ∨
          ∀ other ∈ keys, ¬(j.data.length < other.data.length ∧ j.data <:+ other.data)) :=
        fun hcon => hnot ⟨hj, hcon⟩
      push_neg at hnd
      obtain ⟨_, hex⟩ := hnd
      obtain ⟨other, hother, hlen, hsuf⟩ := hex
      have hole : other.data.length ≤ maxKeyLen keys := len_le_maxKeyLen keys other hother
      have hbound' : maxKeyLen keys - other.data.length < n := by omega
      obtain ⟨q, hq, hqlen, hqsuf⟩ := ih other hother hbound'
      exact ⟨q, hq, le_trans (le_of_lt hlen) hqlen, hsuf.trans hqsuf⟩

/-- Helper: every key has a retained key at least as long of which it is a
suffix. -/
theorem filtered_cover (keys : List String) (j : String) (hj : j ∈ keys) :
    ∃ q ∈ filterShortSuffix keys, j.data.length ≤ q.data.length ∧ j.data <:+ q.data :=
  filtered_cover_aux keys (maxKeyLen keys + 1) j hj
    (by have := Nat.sub_le (maxKeyLen keys) j.data.length; omega)

/-- C8: a 7-digit number whose canonical key is a proper suffix of a
retained longer key is dropped from the output of `deduplicatePhones`, and
a 7-digit number with no such longer retained match is retained.  (`k` is
the number's canonical key and `p` the representation the map stored for
it.) -/
theorem dedupPhones_sevenDigit_suffix (phones : List String) (k p : String)
    (hk : alookup k (phoneByKey phones) = some p) (h7 : k.data.length = 7) :
    ((∃ q ∈ filteredPhoneKeys phones,
        k.data.length < q.data.length ∧ k.data <:+ q.data) →
      p ∉ deduplicatePhones phones) ∧
    ((¬∃ q ∈ filteredPhoneKeys phones,
        k.data.length < q.data.length ∧ k.data <:+ q.data) →
      p ∈ deduplicatePhones phones) := by
  obtain ⟨hinv1, _⟩ := phoneByKey_inv phones
  have hmem : (k, p) ∈ phoneByKey phones := alookup_mem k p _ hk
  have hkeyp : k = canonKey p := hinv1 (k, p) hmem
  have hkmem : k ∈ phoneKeys phones := by
    rw [phoneKeys]
    exact List.mem_map_of_mem Prod.fst hmem
  have hchar : p ∈ deduplicatePhones phones ↔ k ∈ filteredPhoneKeys phones := by
    rw [deduplicatePhones, mem_sortB, List.mem_filterMap]
    constructor
    · rintro ⟨k', hk', hlk'⟩
      have hmem' := alookup_mem k' p _ hlk'
      have hkey' : k' = canonKey p := hinv1 (k', p) hmem'
      rw [hkey', ← hkeyp] at hk'
      exact hk'
    · intro hkf
      exact ⟨k, hkf, hk⟩
  constructor
  · rintro ⟨q, hqf, hqlen, hqsuf⟩ hp
    have hkf := hchar.mp hp
    rw [filteredPhoneKeys] at hkf
    rcases ((mem_filterShortSuffix (phoneKeys phones) k).mp hkf).2 with h10 | hall
    · omega
    · have hqkeys : q ∈ phoneKeys phones :=
        ((mem_filterShortSuffix (phoneKeys phones) q).mp
          (by rw [filteredPhoneKeys] at hqf; exact hqf)).1
      exact hall q hqkeys ⟨hqlen, hqsuf⟩
  · intro hne
    refine hchar.mpr ?_
    rw [filteredPhoneKeys]
    refine (mem_filterShortSuffix (phoneKeys phones) k).mpr ⟨hkmem, Or.inr ?_⟩
    rintro other hother ⟨hl, hs⟩
    obtain ⟨q, hqf, hql, hqs⟩ := filtered_cover (phoneKeys phones) other hother
    exact hne ⟨q, by rw [filteredPhoneKeys]; exact hqf,
      lt_of_lt_of_le hl hql, hs.trans hqs⟩

/-- C8 witness: the 7-digit fragment "7629615" is dropped because its key
is a suffix of the retained key of "+14047629615". -/
theorem dedupPhones_sevenDigit_suffix_w :
    ("7629615" : String) ∉ deduplicatePhones ["+14047629615", "7629615"] :=
  (dedupPhones_sevenDigit_suffix ["+14047629615", "7629615"] "7629615" "7629615"
      (by decide) (by decide)).1
    ⟨"4047629615", by decide, by decide, by decide⟩
